import Mathlib

/-!
Verification of the inference pipeline in `src/training/infer.py`
(class `Inference` and the driver `main`), shallowly embedded:
tensors are dense 4-axis arrays (batch, channel, height, width) of
rationals, Python slice/pad/cat/clamp semantics are translated
operation by operation, and the external collaborators (Model,
TransferFunction) are parameters with their spec contracts as
hypotheses.
-/

namespace OIDNInfer

/-- A dense 4-axis tensor (batch N, channel C, height H, width W) with
rational entries; `data` is total, entries outside the bounds are junk. -/
structure Tensor where
  N : Nat
  C : Nat
  H : Nat
  W : Nat
  data : Nat → Nat → Nat → Nat → ℚ

instance : Inhabited Tensor := ⟨⟨0, 0, 0, 0, fun _ _ _ _ => 0⟩⟩

/-- `input.clone()` (infer.py line 42): an independent copy of the tensor. -/
def Tensor.clone (t : Tensor) : Tensor := ⟨t.N, t.C, t.H, t.W, t.data⟩

/-- Python channel slice `x[:, a:b, ...]` with Python's clamping slice
semantics (empty when `a ≥ min b C`). -/
def sliceC (t : Tensor) (a b : Nat) : Tensor :=
  ⟨t.N, min b t.C - a, t.H, t.W, fun n c h w => t.data n (a + c) h w⟩

/-- `torch.cat((a, b), 1)`: concatenation along the channel axis. -/
def catC (a b : Tensor) : Tensor :=
  ⟨a.N, a.C + b.C, a.H, a.W, fun n c h w =>
    if c < a.C then a.data n c h w else b.data n (c - a.C) h w⟩

/-- `torch.cat(list, 1)` for a list of tensors (infer.py line 60). -/
def catList (l : List Tensor) : Tensor :=
  match l with
  | [] => default
  | t :: rest => rest.foldl catC t

/-- `F.pad(x, (0, padW, 0, padH))` (infer.py lines 54-55): zero padding on
the trailing (right/bottom) edges only, the origin stays fixed. -/
def pad2 (t : Tensor) (padW padH : Nat) : Tensor :=
  ⟨t.N, t.C, t.H + padH, t.W + padW, fun n c h w =>
    if h < t.H ∧ w < t.W then t.data n c h w else 0⟩

/-- `x[:, :, :hh, :ww]` (infer.py line 65): prefix crop of the spatial axes,
with Python's clamping slice semantics. -/
def cropHW (t : Tensor) (hh ww : Nat) : Tensor :=
  ⟨t.N, t.C, min hh t.H, min ww t.W, t.data⟩

/-- Element-wise map over a tensor. -/
def mapT (f : ℚ → ℚ) (t : Tensor) : Tensor :=
  ⟨t.N, t.C, t.H, t.W, fun n c h w => f (t.data n c h w)⟩

/-- `torch.clamp(x, min=q)` (infer.py line 68). -/
def clampMin (t : Tensor) (q : ℚ) : Tensor := mapT (fun v => max v q) t

/-- `torch.clamp(x, max=q)` (infer.py line 76). -/
def clampMax (t : Tensor) (q : ℚ) : Tensor := mapT (fun v => min v q) t

/-- Slice assignment `x[:, a:a+v.C, ...] = v` (infer.py line 50). -/
def writeSliceC (x : Tensor) (a : Nat) (v : Tensor) : Tensor :=
  ⟨x.N, x.C, x.H, x.W, fun n c h w =>
    if a ≤ c ∧ c < a + v.C then v.data n (c - a) h w else x.data n c h w⟩

/-- Modelled from the spec: `round_up` comes from `util.py`, which is not
under `src/`; per the spec, `roundUp(dim, A)` is the smallest multiple of
the alignment `A` that is ≥ `dim` (zero extra when already a multiple). -/
def round_up (a b : Nat) : Nat := (a + b - 1) / b * b

/-- Modelled from the spec: the TransferFunction collaborator (`color.py`
is not under `src/`) is a pure pair of element-wise forward/inverse
tone-mapping operations over color-like channels. -/
structure TransferFunction where
  forward : ℚ → ℚ
  inverse : ℚ → ℚ

/-- The attributes of an `Inference` object relevant to `__call__`
(infer.py lines 19-38): main feature name, number of main channels,
the Model (with its alignment), and the optional TransferFunction. -/
structure InferConfig where
  main_feature : String
  num_main_channels : Nat
  model : Tensor → Tensor
  alignment : Nat
  transfer : Option TransferFunction

/-- Lines 44-50: if a transfer function is configured, slice the first
`num_main_channels` channels, scale by `exposure` when the main feature
is hdr, apply `forward`, and write the slice back in place. -/
def transferStage (cfg : InferConfig) (x : Tensor) (exposure : ℚ) : Tensor :=
  match cfg.transfer with
  | none => x
  | some tf =>
    let color := sliceC x 0 cfg.num_main_channels
    let color := if cfg.main_feature = "hdr" then mapT (fun v => v * exposure) color else color
    let color := mapT tf.forward color
    writeSliceC x 0 color

/-- Lines 52-55: pad the spatial axes up to the model alignment, on the
trailing edges only. -/
def padStage (cfg : InferConfig) (x : Tensor) : Tensor :=
  pad2 x (round_up x.W cfg.alignment - x.W) (round_up x.H cfg.alignment - x.H)

/-- The list of tensors passed to the Model by lines 58-62, in invocation
order: for sh1, one per basis offset 0, 3, 6, each basis concatenated with
the shared channels beyond offset 9; otherwise the single padded tensor. -/
def modelInvocations (cfg : InferConfig) (x : Tensor) : List Tensor :=
  if cfg.main_feature = "sh1" then
    ([0, 3, 6] : List Nat).map (fun i => catC (sliceC x i (i + 3)) (sliceC x 9 x.C))
  else [x]

/-- Lines 57-62: run the model; for sh1, concatenate the per-basis model
results along the channel axis in x, y, z order. -/
def modelStage (cfg : InferConfig) (x : Tensor) : Tensor :=
  if cfg.main_feature = "sh1" then
    catList (([0, 3, 6] : List Nat).map
      (fun i => cfg.model (catC (sliceC x i (i + 3)) (sliceC x 9 x.C))))
  else cfg.model x

/-- Lines 70-77: if a transfer function is configured, apply `inverse` to
the full result, then divide by `exposure` for hdr or clamp to a maximum
of 1 otherwise. -/
def postStage (cfg : InferConfig) (x : Tensor) (exposure : ℚ) : Tensor :=
  match cfg.transfer with
  | none => x
  | some tf =>
    let y := mapT tf.inverse x
    if cfg.main_feature = "hdr" then mapT (fun v => v / exposure) y else clampMax y 1

/-- `Inference.__call__` (infer.py lines 41-78): clone, transfer forward,
pad, model, crop back to the pre-pad spatial shape, clamp at 0, transfer
inverse / exposure division / clamp at 1. -/
def inferCall (cfg : InferConfig) (input : Tensor) (exposure : ℚ) : Tensor :=
  let x := input.clone
  let x := transferStage cfg x exposure
  let p := padStage cfg x
  let y := modelStage cfg p
  let y := cropHW y x.H x.W
  let y := clampMin y 0
  postStage cfg y exposure

/-- Extensional tensor equality: equal shapes and equal entries at every
in-bounds index. -/
def Tensor.EqT (a b : Tensor) : Prop :=
  a.N = b.N ∧ a.C = b.C ∧ a.H = b.H ∧ a.W = b.W ∧
  ∀ n < a.N, ∀ c < a.C, ∀ h < a.H, ∀ w < a.W, a.data n c h w = b.data n c h w

instance (a b : Tensor) : Decidable (Tensor.EqT a b) := by
  unfold Tensor.EqT; infer_instance

/-- Every in-bounds entry is nonnegative. -/
def Tensor.Nonneg (t : Tensor) : Prop :=
  ∀ n < t.N, ∀ c < t.C, ∀ h < t.H, ∀ w < t.W, 0 ≤ t.data n c h w

instance (t : Tensor) : Decidable t.Nonneg := by
  unfold Tensor.Nonneg; infer_instance

/-- Every in-bounds entry is at most 1. -/
def Tensor.LeOne (t : Tensor) : Prop :=
  ∀ n < t.N, ∀ c < t.C, ∀ h < t.H, ∀ w < t.W, t.data n c h w ≤ 1

instance (t : Tensor) : Decidable t.LeOne := by
  unfold Tensor.LeOne; infer_instance

/-! ### Mutation model for `__call__`

The two in-place operations of `__call__` (`color *= exposure` on a view of
`x`, line 48, and the slice assignment into `x`, line 50) target the buffer
bound to `x`; every later rebinding of `x` (pad, cat, clamp, inverse,
division) produces a fresh tensor. A small heap of buffers makes the role
of the clone at line 42 explicit: the caller's buffer is an index into the
heap, `clone` allocates a new buffer, and the transfer stage writes to the
buffer the clone produced. -/

/-- A heap of tensor buffers; a Python variable holding a tensor is an
index into the heap. -/
abbrev Heap := List Tensor

/-- `t.clone()` at the heap level: allocate a fresh buffer holding a copy
of buffer `i`, returning the new heap and the new buffer's index. -/
def heapClone (h : Heap) (i : Nat) : Heap × Nat :=
  (h ++ [List.getD h i default], List.length h)

/-- Overwrite buffer `i` in place. -/
def heapWrite (h : Heap) (i : Nat) (t : Tensor) : Heap := List.set h i t

/-- `Inference.__call__` with the aliasing structure of its buffers made
explicit: line 42 clones the caller's buffer, lines 45-50 mutate the
cloned buffer in place, and every later stage rebinds `x`/the result to
fresh tensors. Returns the final heap and the returned tensor. -/
def inferCallHeap (cfg : InferConfig) (h : Heap) (inputIdx : Nat) (exposure : ℚ) :
    Heap × Tensor :=
  let hc := heapClone h inputIdx
  let h1 := hc.1
  let xIdx := hc.2
  let h2 := heapWrite h1 xIdx (transferStage cfg (List.getD h1 xIdx default) exposure)
  let x := List.getD h2 xIdx default
  let p := padStage cfg x
  let y := modelStage cfg p
  let y := cropHW y x.H x.W
  let y := clampMin y 0
  (h2, postStage cfg y exposure)

/-! ### Driver: metrics aggregation (infer.py lines 102-103, 163-172, 191-200) -/

/-- One processed input image as seen by the metric bookkeeping: whether
its group has a target, and the `compare_images` score for each metric
name. -/
structure DriverInput where
  hasTarget : Bool
  score : String → ℚ

/-- The inner loop `for metric in cfg.metric: metric_sum[metric] += value`
(lines 166-168), as an update of the sum table. -/
def addScores (metrics : List String) (s : String → ℚ) (score : String → ℚ) :
    String → ℚ :=
  metrics.foldl (fun acc m => fun m2 => if m2 = m then acc m2 + score m2 else acc m2) s

/-- Lines 165-172: when the group has a target and at least one metric is
requested, add every metric's score and increment the shared count once. -/
def metricStep (metrics : List String) (acc : (String → ℚ) × Nat) (inp : DriverInput) :
    (String → ℚ) × Nat :=
  if inp.hasTarget = true ∧ metrics ≠ [] then
    (addScores metrics acc.1 inp.score, acc.2 + 1)
  else acc

/-- The accumulator state (`metric_sum`, `metric_count`) after processing a
sequence of inputs, starting from the all-zero table of lines 102-103. -/
def runMetrics (metrics : List String) (inputs : List DriverInput) : (String → ℚ) × Nat :=
  inputs.foldl (metricStep metrics) (fun _ => 0, 0)

/-- Lines 192-200: when the count is positive, report `sum / count` for
each requested metric; otherwise report nothing. -/
def metricReport (metrics : List String) (inputs : List DriverInput) :
    Option (List (String × ℚ)) :=
  let r := runMetrics metrics inputs
  if 0 < r.2 then some (metrics.map (fun m => (m, r.1 m / (r.2 : ℚ)))) else none

/-! ### Driver: output filename (infer.py lines 174-177) -/

/-- The binding of the bare name `epoch` in scope at line 177 of
infer.py: the function `main` never assigns `epoch` (the checkpoint epoch
is stored as the attribute `infer.epoch`), the module assigns no global of
that name, and the star-imported helper modules export functions, not a
variable named `epoch` — so the name is unbound. -/
def epochNameBinding : Option Int := none

/-- Lines 175-177: build the output name `input_name + '.' + cfg.result`,
appending `_` and the value of the f-string's free name `epoch` when
`cfg.num_epochs` is set; an unbound name raises `NameError`. -/
def outputName (inputName resultName : String) (numEpochsSet : Bool) :
    Except String String :=
  let base := inputName ++ "." ++ resultName
  if numEpochsSet then
    match epochNameBinding with
    | some e => Except.ok (base ++ "_" ++ toString e)
    | none => Except.error "NameError"
  else Except.ok base

/-! ### Driver: per-format image saving (infer.py lines 113-123) -/

/-- The format loop of `save_images` (lines 116-123): for each requested
format, extended-range formats (exr, pfm, hdr) receive the local variable
`image`, remapped by `image = image * 2 - 1` first when the main feature
is sh1 or nrm — note the reassignment persists across loop iterations —
while other formats receive `image_srgb`. Returns the (format, tensor)
pairs written, in order. (`tensor_to_image` at lines 113-114 is a
value-preserving layout conversion and is omitted.) -/
def savedImages (mainFeature : String) (formats : List String)
    (image imageSrgb : Tensor) : List (String × Tensor) :=
  (formats.foldl
    (fun (acc : Tensor × List (String × Tensor)) format =>
      if format ∈ (["exr", "pfm", "hdr"] : List String) then
        let img := if mainFeature ∈ (["sh1", "nrm"] : List String) then
            mapT (fun v => v * 2 - 1) acc.1
          else acc.1
        (img, acc.2 ++ [(format, img)])
      else (acc.1, acc.2 ++ [(format, imageSrgb)]))
    (image, [])).2

/-! ### Concrete fixtures for witnesses and counterexamples -/

/-- A constant tensor of the given shape. -/
def tConst (nn cc hh ww : Nat) (q : ℚ) : Tensor := ⟨nn, cc, hh, ww, fun _ _ _ _ => q⟩

/-- The identity transfer function (forward and inverse both identity). -/
def idTF : TransferFunction := ⟨fun q => q, fun q => q⟩

/-- An ldr configuration with identity model and identity transfer. -/
def cfgLdrId : InferConfig := ⟨"ldr", 3, fun t => t, 1, some idTF⟩

/-- An hdr configuration with identity model and identity transfer. -/
def cfgHdrId : InferConfig := ⟨"hdr", 3, fun t => t, 1, some idTF⟩

/-- A normal-feature configuration with identity model and no transfer. -/
def cfgNrmNone : InferConfig := ⟨"nrm", 3, fun t => t, 1, none⟩

/-- An sh1 configuration with identity model and identity transfer. -/
def cfgSh1Id : InferConfig := ⟨"sh1", 9, fun t => t, 1, some idTF⟩

/-- An ldr configuration with identity model, alignment 2 and no transfer. -/
def cfgAlign2 : InferConfig := ⟨"ldr", 3, fun t => t, 2, none⟩

/-- A 1×4×1×1 hdr input whose auxiliary channel (index 3) holds 4. -/
def tAux4 : Tensor := ⟨1, 4, 1, 1, fun _ c _ _ => if c = 3 then 4 else 0⟩

/-! ### Helper lemmas -/

theorem round_up_ge (a b : Nat) (hb : 0 < b) : a ≤ round_up a b := by
  unfold round_up
  have hdm := Nat.div_add_mod (a + b - 1) b
  have hlt : (a + b - 1) % b < b := Nat.mod_lt _ hb
  rw [Nat.mul_comm]
  omega

theorem round_up_mod (a b : Nat) : round_up a b % b = 0 := by
  unfold round_up
  exact Nat.mul_mod_left _ _

theorem transferStage_N (cfg : InferConfig) (x : Tensor) (e : ℚ) :
    (transferStage cfg x e).N = x.N := by
  unfold transferStage
  cases cfg.transfer <;> rfl

theorem transferStage_C (cfg : InferConfig) (x : Tensor) (e : ℚ) :
    (transferStage cfg x e).C = x.C := by
  unfold transferStage
  cases cfg.transfer <;> rfl

theorem transferStage_H (cfg : InferConfig) (x : Tensor) (e : ℚ) :
    (transferStage cfg x e).H = x.H := by
  unfold transferStage
  cases cfg.transfer <;> rfl

theorem transferStage_W (cfg : InferConfig) (x : Tensor) (e : ℚ) :
    (transferStage cfg x e).W = x.W := by
  unfold transferStage
  cases cfg.transfer <;> rfl

theorem padStage_H (cfg : InferConfig) (x : Tensor) (hA : 0 < cfg.alignment) :
    (padStage cfg x).H = round_up x.H cfg.alignment := by
  unfold padStage pad2
  have := round_up_ge x.H cfg.alignment hA
  simp only []
  omega

theorem padStage_W (cfg : InferConfig) (x : Tensor) (hA : 0 < cfg.alignment) :
    (padStage cfg x).W = round_up x.W cfg.alignment := by
  unfold padStage pad2
  have := round_up_ge x.W cfg.alignment hA
  simp only []
  omega

theorem modelStage_HW (cfg : InferConfig) (p : Tensor)
    (hmodel : ∀ t : Tensor, t.H % cfg.alignment = 0 → t.W % cfg.alignment = 0 →
      (cfg.model t).H = t.H ∧ (cfg.model t).W = t.W)
    (hH : p.H % cfg.alignment = 0) (hW : p.W % cfg.alignment = 0) :
    (modelStage cfg p).H = p.H ∧ (modelStage cfg p).W = p.W := by
  unfold modelStage
  by_cases hsh : cfg.main_feature = "sh1"
  · simp only [hsh, if_pos, List.map, catList, List.foldl]
    have h1 := hmodel (catC (sliceC p 0 (0 + 3)) (sliceC p 9 p.C)) hH hW
    constructor
    · show (catC (catC (cfg.model _) (cfg.model _)) (cfg.model _)).H = p.H
      show (cfg.model (catC (sliceC p 0 (0 + 3)) (sliceC p 9 p.C))).H = p.H
      exact h1.1
    · show (catC (catC (cfg.model _) (cfg.model _)) (cfg.model _)).W = p.W
      show (cfg.model (catC (sliceC p 0 (0 + 3)) (sliceC p 9 p.C))).W = p.W
      exact h1.2
  · simp only [hsh, if_neg, ite_false]
    exact hmodel p hH hW

theorem Tensor.clone_eq (t : Tensor) : t.clone = t := rfl

@[simp] theorem mapT_N (f : ℚ → ℚ) (t : Tensor) : (mapT f t).N = t.N := rfl

@[simp] theorem mapT_C (f : ℚ → ℚ) (t : Tensor) : (mapT f t).C = t.C := rfl

@[simp] theorem mapT_H (f : ℚ → ℚ) (t : Tensor) : (mapT f t).H = t.H := rfl

@[simp] theorem mapT_W (f : ℚ → ℚ) (t : Tensor) : (mapT f t).W = t.W := rfl

@[simp] theorem cropHW_N (t : Tensor) (hh ww : Nat) : (cropHW t hh ww).N = t.N := rfl

@[simp] theorem cropHW_C (t : Tensor) (hh ww : Nat) : (cropHW t hh ww).C = t.C := rfl

@[simp] theorem cropHW_H (t : Tensor) (hh ww : Nat) : (cropHW t hh ww).H = min hh t.H := rfl

@[simp] theorem cropHW_W (t : Tensor) (hh ww : Nat) : (cropHW t hh ww).W = min ww t.W := rfl

theorem postStage_N (cfg : InferConfig) (x : Tensor) (e : ℚ) :
    (postStage cfg x e).N = x.N := by
  unfold postStage
  cases cfg.transfer
  · rfl
  · dsimp only []
    split <;> rfl

theorem postStage_C (cfg : InferConfig) (x : Tensor) (e : ℚ) :
    (postStage cfg x e).C = x.C := by
  unfold postStage
  cases cfg.transfer
  · rfl
  · dsimp only []
    split <;> rfl

theorem postStage_H (cfg : InferConfig) (x : Tensor) (e : ℚ) :
    (postStage cfg x e).H = x.H := by
  unfold postStage
  cases cfg.transfer
  · rfl
  · dsimp only []
    split <;> rfl

theorem postStage_W (cfg : InferConfig) (x : Tensor) (e : ℚ) :
    (postStage cfg x e).W = x.W := by
  unfold postStage
  cases cfg.transfer
  · rfl
  · dsimp only []
    split <;> rfl

/-- C1: for every input of spatial size H×W and positive model alignment,
`Inference.__call__` returns a tensor of spatial size exactly H×W
(including the zero-pad case where H or W is already a multiple of the
alignment), the pad touches only the trailing edges — every index inside
the original H×W region keeps its pre-pad value — and the crop is the
prefix slice back to the original H and W. -/
theorem c1_output_spatial_shape (cfg : InferConfig) (x : Tensor) (e : ℚ)
    (hA : 0 < cfg.alignment)
    (hmodel : ∀ t : Tensor, t.H % cfg.alignment = 0 → t.W % cfg.alignment = 0 →
      (cfg.model t).H = t.H ∧ (cfg.model t).W = t.W) :
    (inferCall cfg x e).H = x.H ∧ (inferCall cfg x e).W = x.W ∧
    (∀ n c h w, h < (transferStage cfg x e).H → w < (transferStage cfg x e).W →
      (padStage cfg (transferStage cfg x e)).data n c h w =
        (transferStage cfg x e).data n c h w) := by
  have hx2H := transferStage_H cfg x e
  have hx2W := transferStage_W cfg x e
  have hpH := padStage_H cfg (transferStage cfg x e) hA
  have hpW := padStage_W cfg (transferStage cfg x e) hA
  have hpHm : (padStage cfg (transferStage cfg x e)).H % cfg.alignment = 0 := by
    rw [hpH]; exact round_up_mod _ _
  have hpWm : (padStage cfg (transferStage cfg x e)).W % cfg.alignment = 0 := by
    rw [hpW]; exact round_up_mod _ _
  have hm := modelStage_HW cfg (padStage cfg (transferStage cfg x e)) hmodel hpHm hpWm
  have hgeH : (transferStage cfg x e).H ≤ (padStage cfg (transferStage cfg x e)).H := by
    rw [hpH]; exact round_up_ge _ _ hA
  have hgeW : (transferStage cfg x e).W ≤ (padStage cfg (transferStage cfg x e)).W := by
    rw [hpW]; exact round_up_ge _ _ hA
  refine ⟨?_, ?_, ?_⟩
  · show (postStage cfg (clampMin (cropHW (modelStage cfg
        (padStage cfg (transferStage cfg x e))) (transferStage cfg x e).H
        (transferStage cfg x e).W) 0) e).H = x.H
    rw [postStage_H]
    unfold clampMin
    rw [mapT_H, cropHW_H, hm.1]
    omega
  · show (postStage cfg (clampMin (cropHW (modelStage cfg
        (padStage cfg (transferStage cfg x e))) (transferStage cfg x e).H
        (transferStage cfg x e).W) 0) e).W = x.W
    rw [postStage_W]
    unfold clampMin
    rw [mapT_W, cropHW_W, hm.2]
    omega
  · intro n c h w hh hw
    unfold padStage pad2
    dsimp only []
    rw [if_pos ⟨hh, hw⟩]

/-- Concrete instantiation of `c1_output_spatial_shape`: identity model,
alignment 2, 3×5 spatial input (both dimensions need padding). -/
theorem c1_output_spatial_shape_witness :
    (inferCall cfgAlign2 (tConst 1 3 3 5 7) 1).H = (tConst 1 3 3 5 7).H ∧
    (inferCall cfgAlign2 (tConst 1 3 3 5 7) 1).W = (tConst 1 3 3 5 7).W ∧
    (∀ n c h w, h < (transferStage cfgAlign2 (tConst 1 3 3 5 7) 1).H →
      w < (transferStage cfgAlign2 (tConst 1 3 3 5 7) 1).W →
      (padStage cfgAlign2 (transferStage cfgAlign2 (tConst 1 3 3 5 7) 1)).data n c h w =
        (transferStage cfgAlign2 (tConst 1 3 3 5 7) 1).data n c h w) :=
  c1_output_spatial_shape cfgAlign2 (tConst 1 3 3 5 7) 1 (by decide)
    (fun _ _ _ => ⟨rfl, rfl⟩)

/-- C10: when the main feature is not hdr, `Inference.__call__` never
reads the exposure argument — the result is identical for any two
exposure values. -/
theorem c10_exposure_noninterference (cfg : InferConfig) (x : Tensor) (e1 e2 : ℚ)
    (h : cfg.main_feature ≠ "hdr") :
    inferCall cfg x e1 = inferCall cfg x e2 := by
  unfold inferCall transferStage postStage
  cases htr : cfg.transfer with
  | none => simp only [htr]
  | some tf => simp only [htr, h, ite_false, eq_self_iff_true, if_neg]

/-- Concrete instantiation of `c10_exposure_noninterference`: an ldr
configuration evaluated at exposures 5 and 7. -/
theorem c10_exposure_noninterference_witness :
    inferCall cfgLdrId (tConst 1 3 1 1 2) 5 = inferCall cfgLdrId (tConst 1 3 1 1 2) 7 :=
  c10_exposure_noninterference cfgLdrId (tConst 1 3 1 1 2) 5 7 (by decide)

/-- When the model is the identity and the main feature is not sh1, the
model stage is transparent and `__call__` is the pre/post pipeline alone. -/
theorem inferCall_idModel (cfg : InferConfig) (x : Tensor) (e : ℚ)
    (hmodel : ∀ t, cfg.model t = t) (hsh : cfg.main_feature ≠ "sh1") :
    inferCall cfg x e = postStage cfg (clampMin (cropHW
      (padStage cfg (transferStage cfg x e)) (transferStage cfg x e).H
      (transferStage cfg x e).W) 0) e := by
  simp only [inferCall, modelStage, Tensor.clone_eq, hsh, ite_false, hmodel]

/-- Writing back an elementwise-identity image of the leading channel
slice leaves the tensor unchanged. -/
theorem writeSliceC_mapT_id (x : Tensor) (k : Nat) (g : ℚ → ℚ)
    (hg : ∀ q, g q = q) : writeSliceC x 0 (mapT g (sliceC x 0 k)) = x := by
  unfold writeSliceC mapT sliceC
  dsimp only []
  have hdata : (fun n c h w => if 0 ≤ c ∧ c < 0 + (min k x.C - 0) then
      g (x.data n (0 + (c - 0)) h w) else x.data n c h w) = x.data := by
    funext n c h w
    split
    · rw [hg]
      simp only [Nat.zero_add, Nat.sub_zero]
    · rfl
  rw [hdata]

/-- With an identity transfer function configured, the transfer stage at
exposure 1 is the identity. -/
theorem transferStage_id (cfg : InferConfig) (x : Tensor) (tf : TransferFunction)
    (htr : cfg.transfer = some tf) (hfw : ∀ q, tf.forward q = q) :
    transferStage cfg x 1 = x := by
  unfold transferStage
  rw [htr]
  dsimp only []
  by_cases hh : cfg.main_feature = "hdr"
  · rw [if_pos hh]
    exact writeSliceC_mapT_id x cfg.num_main_channels
      (fun v => tf.forward (v * 1)) (fun q => by show tf.forward (q * 1) = q; rw [mul_one, hfw])
  · rw [if_neg hh]
    exact writeSliceC_mapT_id x cfg.num_main_channels tf.forward hfw

/-- C2 counterexample: with the identity model and the identity transfer
function configured on an ldr (non-hdr) main feature, the input of
constant value 2 is clamped to 1 by line 76, so `__call__(x, 1)` is not
`clamp(x, min=0)`. -/
theorem c2_roundtrip_counterexample :
    ¬ Tensor.EqT (inferCall cfgLdrId (tConst 1 3 1 1 2) 1)
      (clampMin (tConst 1 3 1 1 2) 0) := by
  decide

/-- C2 (amended): with an identity Model and an identity TransferFunction
configured, for a non-sh1 main feature, `__call__(x, 1)` equals
`clamp(x, min=0)` when the main feature is hdr, and equals
`clamp(x, min=0, max=1)` otherwise — the non-hdr path additionally clamps
to a maximum of 1 (infer.py line 76). -/
theorem c2_roundtrip_identity (cfg : InferConfig) (x : Tensor) (tf : TransferFunction)
    (htr : cfg.transfer = some tf)
    (hfw : ∀ q, tf.forward q = q) (hinv : ∀ q, tf.inverse q = q)
    (hmodel : ∀ t, cfg.model t = t) (hA : 0 < cfg.alignment)
    (hsh : cfg.main_feature ≠ "sh1") :
    (cfg.main_feature = "hdr" →
      Tensor.EqT (inferCall cfg x 1) (clampMin x 0)) ∧
    (cfg.main_feature ≠ "hdr" →
      Tensor.EqT (inferCall cfg x 1) (clampMax (clampMin x 0) 1)) := by
  have hcall := inferCall_idModel cfg x 1 hmodel hsh
  rw [transferStage_id cfg x tf htr hfw] at hcall
  have hminH : min x.H (padStage cfg x).H = x.H :=
    Nat.min_eq_left (by rw [padStage_H cfg x hA]; exact round_up_ge _ _ hA)
  have hminW : min x.W (padStage cfg x).W = x.W :=
    Nat.min_eq_left (by rw [padStage_W cfg x hA]; exact round_up_ge _ _ hA)
  have hdata : ∀ n c h w, h < x.H → w < x.W →
      (clampMin (cropHW (padStage cfg x) x.H x.W) 0).data n c h w =
        max (x.data n c h w) 0 := by
    intro n c h w hh hw
    unfold clampMin mapT cropHW padStage pad2
    dsimp only []
    rw [if_pos ⟨hh, hw⟩]
  constructor
  · intro hhdr
    rw [hcall]
    refine ⟨?_, ?_, ?_, ?_, ?_⟩
    · rw [postStage_N]; rfl
    · rw [postStage_C]; rfl
    · rw [postStage_H]
      unfold clampMin
      rw [mapT_H, cropHW_H, hminH]; rfl
    · rw [postStage_W]
      unfold clampMin
      rw [mapT_W, cropHW_W, hminW]; rfl
    · intro n hn c hc h hh w hw
      rw [postStage_H, postStage_W] at *
      unfold clampMin at hh hw
      rw [mapT_H, cropHW_H, hminH] at hh
      rw [mapT_W, cropHW_W, hminW] at hw
      show (postStage cfg _ 1).data n c h w = (clampMin x 0).data n c h w
      unfold postStage
      rw [htr]
      dsimp only []
      rw [if_pos hhdr]
      unfold mapT
      dsimp only []
      rw [hinv, hdata n c h w hh hw]
      unfold clampMin mapT
      dsimp only []
      rw [div_one]
  · intro hhdr
    rw [hcall]
    refine ⟨?_, ?_, ?_, ?_, ?_⟩
    · rw [postStage_N]; rfl
    · rw [postStage_C]; rfl
    · rw [postStage_H]
      unfold clampMin
      rw [mapT_H, cropHW_H, hminH]; rfl
    · rw [postStage_W]
      unfold clampMin
      rw [mapT_W, cropHW_W, hminW]; rfl
    · intro n hn c hc h hh w hw
      rw [postStage_H, postStage_W] at *
      unfold clampMin at hh hw
      rw [mapT_H, cropHW_H, hminH] at hh
      rw [mapT_W, cropHW_W, hminW] at hw
      show (postStage cfg _ 1).data n c h w = (clampMax (clampMin x 0) 1).data n c h w
      unfold postStage
      rw [htr]
      dsimp only []
      rw [if_neg hhdr]
      unfold clampMax mapT
      dsimp only []
      rw [hinv, hdata n c h w hh hw]
      unfold clampMin mapT
      dsimp only []

/-- Concrete instantiation of `c2_roundtrip_identity`: the ldr identity
configuration at a constant input of value 2. -/
theorem c2_roundtrip_identity_witness :
    (cfgLdrId.main_feature = "hdr" →
      Tensor.EqT (inferCall cfgLdrId (tConst 1 3 1 1 2) 1)
        (clampMin (tConst 1 3 1 1 2) 0)) ∧
    (cfgLdrId.main_feature ≠ "hdr" →
      Tensor.EqT (inferCall cfgLdrId (tConst 1 3 1 1 2) 1)
        (clampMax (clampMin (tConst 1 3 1 1 2) 0) 1)) :=
  c2_roundtrip_identity cfgLdrId (tConst 1 3 1 1 2) idTF rfl
    (fun _ => rfl) (fun _ => rfl) (fun _ => rfl) (by decide) (by decide)

/-- Range of the post stage applied after the clamp at 0 of line 68: the
result is nonnegative provided any configured transfer inverse preserves
nonnegativity and the exposure is positive for hdr; and bounded by 1 for
non-hdr features when a transfer function is configured (line 76). -/
theorem postStage_clampMin_range (cfg : InferConfig) (y : Tensor) (e : ℚ)
    (hinv : ∀ tf, cfg.transfer = some tf → ∀ q, 0 ≤ q → 0 ≤ tf.inverse q)
    (hexp : cfg.main_feature = "hdr" → 0 < e) :
    (postStage cfg (clampMin y 0) e).Nonneg ∧
    (cfg.main_feature ≠ "hdr" → cfg.transfer ≠ none →
      (postStage cfg (clampMin y 0) e).LeOne) := by
  constructor
  · intro n hn c hc h hh w hw
    unfold postStage
    cases htr : cfg.transfer with
    | none =>
      show (0 : ℚ) ≤ max (y.data n c h w) 0
      exact le_max_right _ _
    | some tf =>
      dsimp only []
      by_cases hhdr : cfg.main_feature = "hdr"
      · rw [if_pos hhdr]
        show (0 : ℚ) ≤ tf.inverse (max (y.data n c h w) 0) / e
        exact div_nonneg (hinv tf htr _ (le_max_right _ _)) (le_of_lt (hexp hhdr))
      · rw [if_neg hhdr]
        show (0 : ℚ) ≤ min (tf.inverse (max (y.data n c h w) 0)) 1
        exact le_min (hinv tf htr _ (le_max_right _ _)) zero_le_one
  · intro hhdr htrne n hn c hc h hh w hw
    unfold postStage
    cases htr : cfg.transfer with
    | none => exact absurd htr htrne
    | some tf =>
      dsimp only []
      rw [if_neg hhdr]
      show min (tf.inverse (max (y.data n c h w) 0)) 1 ≤ 1
      exact min_le_right _ _

/-- C3 counterexample: with the normal main feature and no transfer
function configured (a configuration the spec allows), the constant
input 2 passes through the identity model and the clamp at 0 untouched,
so the non-hdr output is not bounded by 1. -/
theorem c3_range_counterexample :
    cfgNrmNone.main_feature ≠ "hdr" ∧
    ¬ (inferCall cfgNrmNone (tConst 1 3 1 1 2) 1).LeOne := by
  decide

/-- C3 (amended): for every input, provided every configured transfer
inverse maps nonnegative values to nonnegative values and the exposure is
positive when the main feature is hdr, the output of `Inference.__call__`
contains no negative values; and when the main feature is not hdr AND a
transfer function is configured, every output value lies in [0, 1]. -/
theorem c3_output_range (cfg : InferConfig) (x : Tensor) (e : ℚ)
    (hinv : ∀ tf, cfg.transfer = some tf → ∀ q, 0 ≤ q → 0 ≤ tf.inverse q)
    (hexp : cfg.main_feature = "hdr" → 0 < e) :
    (inferCall cfg x e).Nonneg ∧
    (cfg.main_feature ≠ "hdr" → cfg.transfer ≠ none →
      (inferCall cfg x e).LeOne) :=
  postStage_clampMin_range cfg
    (cropHW (modelStage cfg (padStage cfg (transferStage cfg x e)))
      (transferStage cfg x e).H (transferStage cfg x e).W) e hinv hexp

/-- Concrete instantiation of `c3_output_range`: the ldr identity
configuration (transfer configured) on the constant input 2. -/
theorem c3_output_range_witness :
    (inferCall cfgLdrId (tConst 1 3 1 1 2) 1).Nonneg ∧
    (cfgLdrId.main_feature ≠ "hdr" → cfgLdrId.transfer ≠ none →
      (inferCall cfgLdrId (tConst 1 3 1 1 2) 1).LeOne) :=
  c3_output_range cfgLdrId (tConst 1 3 1 1 2) 1
    (by
      intro tf htr q hq
      have h2 : idTF = tf := by injection htr
      rw [← h2]
      exact hq)
    (fun _ => one_pos)

/-- C6 counterexample: with the hdr main feature, identity model and the
identity transfer function (whose inverse is exactly its forward inverse),
an input with an auxiliary channel (channel 3 holds 4) at exposure 2 is
not returned as `clamp(x, min=0)`: the auxiliary channel is divided by
the exposure at line 74 without ever having been multiplied by it, so it
comes back as 2 instead of 4. -/
theorem c6_exposure_cancellation_counterexample :
    ¬ Tensor.EqT (inferCall cfgHdrId tAux4 2) (clampMin tAux4 0) := by
  intro hEq
  have h1 := hEq.2.2.2.2 0 (by decide) 3 (by decide) 0 (by decide) 0 (by decide)
  have hx2 : (transferStage cfgHdrId tAux4 2).data 0 3 0 0 = 4 := by
    show (writeSliceC tAux4 0
      (mapT idTF.forward (mapT (fun v => v * 2) (sliceC tAux4 0 3)))).data 0 3 0 0 = 4
    unfold writeSliceC
    dsimp only []
    rw [if_neg (by decide)]
    rfl
  have hL : (inferCall cfgHdrId tAux4 2).data 0 3 0 0 = 2 := by
    show idTF.inverse (max ((transferStage cfgHdrId tAux4 2).data 0 3 0 0) 0) / 2 = 2
    rw [hx2]
    show max (4 : ℚ) 0 / 2 = 2
    norm_num
  have hR : (clampMin tAux4 0).data 0 3 0 0 = 4 := by
    show max ((4 : ℚ)) 0 = 4
    norm_num
  rw [hL, hR] at h1
  norm_num at h1

/-- C6 (amended): for the hdr main feature with an identity Model and a
TransferFunction whose inverse is the exact inverse of its forward, whose
forward is monotone and fixes 0, and for inputs consisting only of the
main-feature channels (no auxiliary channels), `__call__(x, e)` equals
`clamp(x, min=0)` for every exposure e > 0, under exact arithmetic. -/
theorem c6_exposure_cancellation (cfg : InferConfig) (x : Tensor) (e : ℚ)
    (tf : TransferFunction)
    (hhdr : cfg.main_feature = "hdr") (htr : cfg.transfer = some tf)
    (hroundtrip : ∀ q, tf.inverse (tf.forward q) = q)
    (hmono : ∀ a b : ℚ, a ≤ b → tf.forward a ≤ tf.forward b)
    (hzero : tf.forward 0 = 0)
    (hmodel : ∀ t, cfg.model t = t) (hA : 0 < cfg.alignment)
    (hC : x.C ≤ cfg.num_main_channels) (he : 0 < e) :
    Tensor.EqT (inferCall cfg x e) (clampMin x 0) := by
  have hsh : cfg.main_feature ≠ "sh1" := by rw [hhdr]; decide
  have hcall := inferCall_idModel cfg x e hmodel hsh
  have hmin : min cfg.num_main_channels x.C = x.C := Nat.min_eq_right hC
  have htsN := transferStage_N cfg x e
  have htsC := transferStage_C cfg x e
  have htsH := transferStage_H cfg x e
  have htsW := transferStage_W cfg x e
  have hts : ∀ n c h w, c < x.C →
      (transferStage cfg x e).data n c h w = tf.forward (x.data n c h w * e) := by
    intro n c h w hc
    unfold transferStage
    rw [htr]
    dsimp only []
    rw [if_pos hhdr]
    unfold writeSliceC mapT sliceC
    dsimp only []
    rw [if_pos ⟨Nat.zero_le c, by rw [hmin]; omega⟩]
    simp only [Nat.zero_add, Nat.sub_zero]
  have hminH : min (transferStage cfg x e).H (padStage cfg (transferStage cfg x e)).H =
      x.H := by
    rw [padStage_H cfg _ hA, htsH]
    exact Nat.min_eq_left (round_up_ge _ _ hA)
  have hminW : min (transferStage cfg x e).W (padStage cfg (transferStage cfg x e)).W =
      x.W := by
    rw [padStage_W cfg _ hA, htsW]
    exact Nat.min_eq_left (round_up_ge _ _ hA)
  rw [hcall]
  refine ⟨?_, ?_, ?_, ?_, ?_⟩
  · rw [postStage_N]
    show (padStage cfg (transferStage cfg x e)).N = x.N
    exact htsN
  · rw [postStage_C]
    show (padStage cfg (transferStage cfg x e)).C = x.C
    exact htsC
  · rw [postStage_H]
    unfold clampMin
    rw [mapT_H, cropHW_H, hminH]
    rfl
  · rw [postStage_W]
    unfold clampMin
    rw [mapT_W, cropHW_W, hminW]
    rfl
  · intro n hn c hc h hh w hw
    rw [postStage_N] at hn
    rw [postStage_C] at hc
    rw [postStage_H] at hh
    rw [postStage_W] at hw
    unfold clampMin at hh hw
    rw [mapT_H, cropHW_H, hminH] at hh
    rw [mapT_W, cropHW_W, hminW] at hw
    have hcx : c < x.C := by
      have hc2 : c < (transferStage cfg x e).C := hc
      rwa [htsC] at hc2
    show (postStage cfg _ e).data n c h w = (clampMin x 0).data n c h w
    unfold postStage
    rw [htr]
    dsimp only []
    rw [if_pos hhdr]
    unfold mapT
    dsimp only []
    have hpad : (padStage cfg (transferStage cfg x e)).data n c h w =
        tf.forward (x.data n c h w * e) := by
      unfold padStage pad2
      dsimp only []
      rw [if_pos ⟨by rwa [htsH], by rwa [htsW]⟩]
      exact hts n c h w hcx
    show tf.inverse (max ((padStage cfg (transferStage cfg x e)).data n c h w) 0) / e =
      max (x.data n c h w) 0
    rw [hpad]
    by_cases hv : 0 ≤ x.data n c h w
    · have h1 : (0 : ℚ) ≤ x.data n c h w * e := mul_nonneg hv (le_of_lt he)
      have h2 : (0 : ℚ) ≤ tf.forward (x.data n c h w * e) := by
        rw [← hzero]
        exact hmono _ _ h1
      rw [max_eq_left h2, hroundtrip, mul_div_cancel_right₀ _ (ne_of_gt he),
        max_eq_left hv]
    · push_neg at hv
      have h1 : x.data n c h w * e ≤ 0 := by
        have h2 := mul_le_mul_of_nonneg_right (le_of_lt hv) (le_of_lt he)
        rwa [zero_mul] at h2
      have h2 : tf.forward (x.data n c h w * e) ≤ 0 := by
        rw [← hzero]
        exact hmono _ _ h1
      have hinv0 : tf.inverse 0 = 0 := by
        conv_lhs => rw [← hzero]
        rw [hroundtrip]
      rw [max_eq_right h2, hinv0, zero_div, max_eq_right (le_of_lt hv)]

/-- Concrete instantiation of `c6_exposure_cancellation`: identity
transfer, negative constant input, exposure 2. -/
theorem c6_exposure_cancellation_witness :
    Tensor.EqT (inferCall cfgHdrId (tConst 1 3 1 1 (-1)) 2)
      (clampMin (tConst 1 3 1 1 (-1)) 0) :=
  c6_exposure_cancellation cfgHdrId (tConst 1 3 1 1 (-1)) 2 idTF rfl rfl
    (fun _ => rfl) (fun _ _ h2 => h2) rfl (fun _ => rfl) (by decide)
    (by decide) (by decide)

/-- C5: when the main feature is sh1, the Model is invoked exactly three
times, on the concatenations of channels 0:3, 3:6 and 6:9 of the padded
tensor with its channels 9:, in that order, and the tensor handed to the
crop step is the channel-axis concatenation of the three Model results in
the same x, y, z order. -/
theorem c5_sh1_three_invocations (cfg : InferConfig) (x p : Tensor) (e : ℚ)
    (hsh : cfg.main_feature = "sh1")
    (hp : p = padStage cfg (transferStage cfg x e)) :
    modelInvocations cfg p =
      [catC (sliceC p 0 3) (sliceC p 9 p.C),
       catC (sliceC p 3 6) (sliceC p 9 p.C),
       catC (sliceC p 6 9) (sliceC p 9 p.C)] ∧
    (modelInvocations cfg p).length = 3 ∧
    modelStage cfg p = catC (catC
      (cfg.model (catC (sliceC p 0 3) (sliceC p 9 p.C)))
      (cfg.model (catC (sliceC p 3 6) (sliceC p 9 p.C))))
      (cfg.model (catC (sliceC p 6 9) (sliceC p 9 p.C))) ∧
    inferCall cfg x e = postStage cfg (clampMin (cropHW (catC (catC
      (cfg.model (catC (sliceC p 0 3) (sliceC p 9 p.C)))
      (cfg.model (catC (sliceC p 3 6) (sliceC p 9 p.C))))
      (cfg.model (catC (sliceC p 6 9) (sliceC p 9 p.C))))
      (transferStage cfg x e).H (transferStage cfg x e).W) 0) e := by
  have hms : modelStage cfg p = catC (catC
      (cfg.model (catC (sliceC p 0 3) (sliceC p 9 p.C)))
      (cfg.model (catC (sliceC p 3 6) (sliceC p 9 p.C))))
      (cfg.model (catC (sliceC p 6 9) (sliceC p 9 p.C))) := by
    unfold modelStage
    rw [if_pos hsh]
    rfl
  refine ⟨?_, ?_, hms, ?_⟩
  · unfold modelInvocations
    rw [if_pos hsh]
    rfl
  · unfold modelInvocations
    rw [if_pos hsh]
    rfl
  · show postStage cfg (clampMin (cropHW (modelStage cfg
      (padStage cfg (transferStage cfg x e))) (transferStage cfg x e).H
      (transferStage cfg x e).W) 0) e = _
    rw [← hp, hms]

/-- The padded tensor of the sh1 witness configuration. -/
def pSh1 : Tensor := padStage cfgSh1Id (transferStage cfgSh1Id (tConst 1 9 1 1 1) 1)

/-- Concrete instantiation of `c5_sh1_three_invocations` on a 9-channel
constant input. -/
theorem c5_sh1_three_invocations_witness :
    modelInvocations cfgSh1Id pSh1 =
      [catC (sliceC pSh1 0 3) (sliceC pSh1 9 pSh1.C),
       catC (sliceC pSh1 3 6) (sliceC pSh1 9 pSh1.C),
       catC (sliceC pSh1 6 9) (sliceC pSh1 9 pSh1.C)] ∧
    (modelInvocations cfgSh1Id pSh1).length = 3 ∧
    modelStage cfgSh1Id pSh1 = catC (catC
      (cfgSh1Id.model (catC (sliceC pSh1 0 3) (sliceC pSh1 9 pSh1.C)))
      (cfgSh1Id.model (catC (sliceC pSh1 3 6) (sliceC pSh1 9 pSh1.C))))
      (cfgSh1Id.model (catC (sliceC pSh1 6 9) (sliceC pSh1 9 pSh1.C))) ∧
    inferCall cfgSh1Id (tConst 1 9 1 1 1) 1 = postStage cfgSh1Id (clampMin (cropHW
      (catC (catC
        (cfgSh1Id.model (catC (sliceC pSh1 0 3) (sliceC pSh1 9 pSh1.C)))
        (cfgSh1Id.model (catC (sliceC pSh1 3 6) (sliceC pSh1 9 pSh1.C))))
        (cfgSh1Id.model (catC (sliceC pSh1 6 9) (sliceC pSh1 9 pSh1.C))))
      (transferStage cfgSh1Id (tConst 1 9 1 1 1) 1).H
      (transferStage cfgSh1Id (tConst 1 9 1 1 1) 1).W) 0) 1 :=
  c5_sh1_three_invocations cfgSh1Id (tConst 1 9 1 1 1) pSh1 1 rfl rfl

theorem heap_set_append (h : List Tensor) (a b : Tensor) :
    (h ++ [a]).set h.length b = h ++ [b] := by
  induction h with
  | nil => rfl
  | cons t rest ih =>
    show t :: ((rest ++ [a]).set rest.length b) = t :: (rest ++ [b])
    rw [ih]

theorem heap_getD_last (h : List Tensor) (a : Tensor) :
    List.getD (h ++ [a]) h.length default = a := by
  rw [List.getD_append_right _ _ _ _ (Nat.le_refl _), Nat.sub_self]
  rfl

/-- C8: `Inference.__call__` never mutates the caller's tensor: in the
heap model the caller's buffer holds the same tensor after the call as
before it — the clone at line 42 receives the in-place writes of lines
46-50 — and the returned tensor is the pure pipeline applied to the
original input. -/
theorem c8_input_not_mutated (cfg : InferConfig) (h : Heap) (i : Nat) (e : ℚ)
    (hi : i < List.length h) :
    List.getD (inferCallHeap cfg h i e).1 i default = List.getD h i default ∧
    (inferCallHeap cfg h i e).2 = inferCall cfg (List.getD h i default) e := by
  have hgetLen : List.getD (h ++ [List.getD h i default]) (List.length h) default =
      List.getD h i default := heap_getD_last h _
  constructor
  · unfold inferCallHeap heapClone heapWrite
    dsimp only []
    rw [hgetLen, heap_set_append]
    exact List.getD_append _ _ _ _ hi
  · unfold inferCallHeap heapClone heapWrite
    dsimp only []
    rw [hgetLen, heap_set_append, heap_getD_last]
    rfl

/-- Concrete instantiation of `c8_input_not_mutated`: a one-buffer heap. -/
theorem c8_input_not_mutated_witness :
    List.getD (inferCallHeap cfgLdrId [tConst 1 3 1 1 2] 0 1).1 0 default =
      List.getD [tConst 1 3 1 1 2] 0 default ∧
    (inferCallHeap cfgLdrId [tConst 1 3 1 1 2] 0 1).2 =
      inferCall cfgLdrId (List.getD [tConst 1 3 1 1 2] 0 default) 1 :=
  c8_input_not_mutated cfgLdrId [tConst 1 3 1 1 2] 0 1 (by decide)

/-- C4: when an epoch is selected on the command line (`cfg.num_epochs`
set), line 177 interpolates the bare name `epoch`, which is unbound in
the scope of `main` (the checkpoint epoch is the attribute
`infer.epoch`), so building the output name raises `NameError` before any
image is saved, for every input and result name. -/
theorem c4_epoch_filename_name_error (inputName resultName : String) :
    outputName inputName resultName true = Except.error "NameError" := rfl

/-- C7: evaluated at the failing input — main feature `nrm`, the two
extended-range formats `exr` and `pfm` requested, constant-zero image —
the format loop of `save_images` remaps cumulatively: `exr` receives the
once-remapped tensor (value -1) but `pfm` receives the twice-remapped
tensor (value -3), because `image = image * 2 - 1` at line 120 rebinds
the loop-carried variable. -/
theorem c7_cumulative_remap_evaluation :
    savedImages "nrm" ["exr", "pfm"] (tConst 1 3 1 1 0) (tConst 1 3 1 1 0) =
      [("exr", mapT (fun v => v * 2 - 1) (tConst 1 3 1 1 0)),
       ("pfm", mapT (fun v => v * 2 - 1) (mapT (fun v => v * 2 - 1) (tConst 1 3 1 1 0)))] ∧
    (mapT (fun v => v * 2 - 1) (tConst 1 3 1 1 0)).data 0 0 0 0 = -1 ∧
    (mapT (fun v => v * 2 - 1)
      (mapT (fun v => v * 2 - 1) (tConst 1 3 1 1 0))).data 0 0 0 0 = -3 := by
  refine ⟨rfl, ?_, ?_⟩
  · show (0 : ℚ) * 2 - 1 = -1
    norm_num
  · show ((0 : ℚ) * 2 - 1) * 2 - 1 = -3
    norm_num

/-! ### Metric aggregation lemmas for C9 -/

theorem addScores_notMem (metrics : List String) (s score : String → ℚ) (m : String)
    (hm : m ∉ metrics) : addScores metrics s score m = s m := by
  induction metrics generalizing s with
  | nil => rfl
  | cons a t ih =>
    have hma : m ≠ a := fun hq => hm (by rw [hq]; exact List.mem_cons_self a t)
    have hmt : m ∉ t := fun hmem => hm (List.mem_cons_of_mem a hmem)
    show addScores t (fun m2 => if m2 = a then s m2 + score m2 else s m2) score m = s m
    rw [ih _ hmt]
    rw [if_neg hma]

theorem addScores_mem (metrics : List String) (hnd : metrics.Nodup)
    (s score : String → ℚ) (m : String) (hm : m ∈ metrics) :
    addScores metrics s score m = s m + score m := by
  induction metrics generalizing s with
  | nil => cases hm
  | cons a t ih =>
    show addScores t (fun m2 => if m2 = a then s m2 + score m2 else s m2) score m =
      s m + score m
    rcases List.mem_cons.mp hm with hma | hmt
    · subst hma
      rw [addScores_notMem t _ score m (List.nodup_cons.mp hnd).1]
      rw [if_pos rfl]
    · have hma : m ≠ a := by
        intro hq
        subst hq
        exact (List.nodup_cons.mp hnd).1 hmt
      rw [ih (List.nodup_cons.mp hnd).2 _ hmt]
      rw [if_neg hma]

theorem foldl_metric_count (metrics : List String) (hne : metrics ≠ [])
    (inputs : List DriverInput) :
    ∀ acc : (String → ℚ) × Nat,
    (inputs.foldl (metricStep metrics) acc).2 =
      acc.2 + (inputs.filter (fun i => i.hasTarget)).length := by
  induction inputs with
  | nil => intro acc; rfl
  | cons i t ih =>
    intro acc
    show (t.foldl (metricStep metrics) (metricStep metrics acc i)).2 = _
    rw [ih]
    unfold metricStep
    cases hht : i.hasTarget with
    | false =>
      rw [if_neg (by simp [hht])]
      simp [List.filter_cons, hht]
    | true =>
      rw [if_pos ⟨rfl, hne⟩]
      simp only [List.filter_cons, hht, if_pos, List.length_cons]
      omega

theorem foldl_metric_sum (metrics : List String) (hnd : metrics.Nodup)
    (hne : metrics ≠ []) (m : String) (hm : m ∈ metrics)
    (inputs : List DriverInput) :
    ∀ acc : (String → ℚ) × Nat,
    (inputs.foldl (metricStep metrics) acc).1 m =
      acc.1 m + ((inputs.filter (fun i => i.hasTarget)).map (fun i => i.score m)).sum := by
  induction inputs with
  | nil => intro acc; show acc.1 m = acc.1 m + 0; rw [add_zero]
  | cons i t ih =>
    intro acc
    show (t.foldl (metricStep metrics) (metricStep metrics acc i)).1 m = _
    rw [ih]
    unfold metricStep
    cases hht : i.hasTarget with
    | false =>
      rw [if_neg (by simp [hht])]
      simp [List.filter_cons, hht]
    | true =>
      rw [if_pos ⟨rfl, hne⟩]
      show addScores metrics acc.1 i.score m + _ = _
      rw [addScores_mem metrics hnd acc.1 i.score m hm]
      simp [List.filter_cons, hht]
      ring

theorem runMetrics_count (metrics : List String) (hne : metrics ≠ [])
    (inputs : List DriverInput) :
    (runMetrics metrics inputs).2 = (inputs.filter (fun i => i.hasTarget)).length := by
  show (inputs.foldl (metricStep metrics) (fun _ => 0, 0)).2 = _
  rw [foldl_metric_count metrics hne inputs]
  exact Nat.zero_add _

theorem runMetrics_sum (metrics : List String) (hnd : metrics.Nodup)
    (hne : metrics ≠ []) (m : String) (hm : m ∈ metrics) (inputs : List DriverInput) :
    (runMetrics metrics inputs).1 m =
      ((inputs.filter (fun i => i.hasTarget)).map (fun i => i.score m)).sum := by
  show (inputs.foldl (metricStep metrics) (fun _ => 0, 0)).1 m = _
  rw [foldl_metric_sum metrics hnd hne m hm inputs]
  exact zero_add _

theorem metricReport_eq (metrics : List String) (hnd : metrics.Nodup)
    (hne : metrics ≠ []) (inputs : List DriverInput) :
    metricReport metrics inputs =
      if (inputs.filter (fun i => i.hasTarget)).length = 0 then none
      else some (metrics.map (fun m =>
        (m, ((inputs.filter (fun i => i.hasTarget)).map (fun i => i.score m)).sum /
          ((inputs.filter (fun i => i.hasTarget)).length : ℚ)))) := by
  unfold metricReport
  show (if 0 < (runMetrics metrics inputs).2 then
      some (List.map (fun m => (m, (runMetrics metrics inputs).1 m /
        ((runMetrics metrics inputs).2 : ℚ))) metrics) else none) = _
  rw [runMetrics_count metrics hne inputs]
  by_cases hz : (inputs.filter (fun i => i.hasTarget)).length = 0
  · rw [if_neg (by omega), if_pos hz]
  · rw [if_pos (Nat.pos_of_ne_zero hz), if_neg hz]
    congr 1
    apply List.map_congr_left
    intro m hm
    rw [runMetrics_sum metrics hnd hne m hm inputs]

/-- C9: with distinct requested metric names and at least one metric, the
run-level value reported for each metric is the sum of that metric's
per-input scores over the inputs whose group has a target, divided by the
number of such inputs; that denominator is shared across all metrics and
incremented once per such input; the report is invariant under permuting
the processing order; and nothing is reported when the count is zero. -/
theorem c9_metric_average (metrics : List String) (inputs inputs2 : List DriverInput)
    (hnd : metrics.Nodup) (hne : metrics ≠ []) (hperm : inputs.Perm inputs2) :
    (runMetrics metrics inputs).2 = (inputs.filter (fun i => i.hasTarget)).length ∧
    (∀ m ∈ metrics, (runMetrics metrics inputs).1 m =
      ((inputs.filter (fun i => i.hasTarget)).map (fun i => i.score m)).sum) ∧
    metricReport metrics inputs = metricReport metrics inputs2 ∧
    ((inputs.filter (fun i => i.hasTarget)).length = 0 →
      metricReport metrics inputs = none) ∧
    ((inputs.filter (fun i => i.hasTarget)).length ≠ 0 →
      metricReport metrics inputs = some (metrics.map (fun m =>
        (m, ((inputs.filter (fun i => i.hasTarget)).map (fun i => i.score m)).sum /
          ((inputs.filter (fun i => i.hasTarget)).length : ℚ))))) := by
  refine ⟨?_, ?_, ?_, ?_, ?_⟩
  · exact runMetrics_count metrics hne inputs
  · intro m hm
    exact runMetrics_sum metrics hnd hne m hm inputs
  · have hpf : (inputs.filter (fun i => i.hasTarget)).Perm
        (inputs2.filter (fun i => i.hasTarget)) := hperm.filter _
    have hlen := hpf.length_eq
    have hsum : ∀ mm : String,
        ((inputs.filter (fun i => i.hasTarget)).map (fun i => i.score mm)).sum =
        ((inputs2.filter (fun i => i.hasTarget)).map (fun i => i.score mm)).sum :=
      fun mm => (hpf.map (fun i => i.score mm)).sum_eq
    rw [metricReport_eq metrics hnd hne inputs, metricReport_eq metrics hnd hne inputs2,
      hlen]
    have hfun : (fun m => (m,
        ((inputs.filter (fun i => i.hasTarget)).map (fun i => i.score m)).sum /
          ((inputs2.filter (fun i => i.hasTarget)).length : ℚ))) = (fun m => (m,
        ((inputs2.filter (fun i => i.hasTarget)).map (fun i => i.score m)).sum /
          ((inputs2.filter (fun i => i.hasTarget)).length : ℚ))) := by
      funext m
      rw [hsum m]
    rw [hfun]
  · intro hz
    rw [metricReport_eq metrics hnd hne inputs, if_pos hz]
  · intro hz
    rw [metricReport_eq metrics hnd hne inputs, if_neg hz]

/-- One concrete driver input with a target. -/
def dIn1 : DriverInput := ⟨true, fun _ => 4⟩

/-- One concrete driver input without a target. -/
def dIn2 : DriverInput := ⟨false, fun _ => 9⟩

/-- Concrete instantiation of `c9_metric_average` on one metric and two
inputs, only the first of which has a target. -/
theorem c9_metric_average_witness :
    (runMetrics ["a"] [dIn1, dIn2]).2 =
      ([dIn1, dIn2].filter (fun i => i.hasTarget)).length ∧
    (∀ m ∈ ["a"], (runMetrics ["a"] [dIn1, dIn2]).1 m =
      (([dIn1, dIn2].filter (fun i => i.hasTarget)).map (fun i => i.score m)).sum) ∧
    metricReport ["a"] [dIn1, dIn2] = metricReport ["a"] [dIn1, dIn2] ∧
    (([dIn1, dIn2].filter (fun i => i.hasTarget)).length = 0 →
      metricReport ["a"] [dIn1, dIn2] = none) ∧
    (([dIn1, dIn2].filter (fun i => i.hasTarget)).length ≠ 0 →
      metricReport ["a"] [dIn1, dIn2] = some (["a"].map (fun m =>
        (m, (([dIn1, dIn2].filter (fun i => i.hasTarget)).map (fun i => i.score m)).sum /
          ((([dIn1, dIn2].filter (fun i => i.hasTarget)).length : ℚ)))))) :=
  c9_metric_average ["a"] [dIn1, dIn2] [dIn1, dIn2] (by decide) (by decide)
    (List.Perm.refl _)

end OIDNInfer
